import Mathlib

/-!
Verification development for the pysmartnode component framework
(`pysmartnode/utils/component/__init__.py` and
`pysmartnode/components/sensors/pms5003.py`).

Components are modelled by numeric identities (object identity in Python).
The module-global registry is a singly-linked list: each component object
carries a `_next_component` pointer and the module holds the head pointer
`_components` plus the drain pointer `_init_queue_start`.  The heap of live
component objects is modelled as an association list from component id to
its `_next_component` field; a component object survives unlinking from the
registry (it is merely no longer reachable from the head), which mirrors
Python object semantics.
-/

namespace PySmartNode

/-- Heap of component objects: `(id, _next_component)` pairs in creation
order. -/
abbrev Heap := List (Nat × Option Nat)

/-- The keys (component identities) present in a heap. -/
def keysOf (h : Heap) : List Nat := h.map Prod.fst

/-- Whether a component object with the given identity exists in the heap. -/
def hasKey : Heap → Nat → Bool
  | [], _ => false
  | (a, _) :: h, i => if a = i then true else hasKey h i

/-- Read a component's `_next_component` field (`none` if the object is
absent, which never happens on the states we use). -/
def nextOf : Heap → Nat → Option Nat
  | [], _ => none
  | (a, v) :: h, i => if a = i then v else nextOf h i

/-- Write a component's `_next_component` field. -/
def setNext : Heap → Nat → Option Nat → Heap
  | [], _, _ => []
  | (a, w) :: h, i, v => (a, if a = i then v else w) :: setNext h i v

/-- `isChain h c L` holds when walking the `_next_component` pointers from
the pointer `c` visits exactly the components `L` and ends at `None`.  This
is the registry list as reachable from the module head `_components`. -/
def isChain (h : Heap) : Option Nat → List Nat → Bool
  | none, [] => true
  | some _, [] => false
  | none, _ :: _ => false
  | some c, i :: L => if c = i then hasKey h i && isChain h (nextOf h i) L else false

/-- The tail-finding walk of `ComponentBase.__init__` (lines 50-55):
`c = _components; while c is not None: if c._next_component is None: ...
break; c = c._next_component`.  The Python loop is unbounded; fuel makes the
model total, and on well-formed registries the fuel is never exhausted. -/
def findTail (h : Heap) : Nat → Nat → Option Nat
  | 0, _ => none
  | fuel + 1, c =>
    match nextOf h c with
    | none => some c
    | some c2 => findTail h fuel c2

/-- One network-init drain task (`__initNetworkProcess`).  `pending` is a
task created by `asyncio.create_task` that has not yet read
`_init_queue_start`; `ready c` is about to call `c._init_network()`;
`awaiting c` is suspended inside `await c._init_network()`. -/
inductive DrainState where
  | pending : DrainState
  | ready : Nat → DrainState
  | awaiting : Nat → DrainState
  deriving DecidableEq, Repr

/-- The module-global state of `pysmartnode.utils.component`:
the heap of component objects, `_components` (head), `_init_queue_start`,
the live drain tasks, the trace of `_init_network` invocations in order,
and a counter providing fresh object identities. -/
structure State where
  nodes : Heap
  head : Option Nat
  initQueueStart : Option Nat
  drains : List DrainState
  inited : List Nat
  counter : Nat
  deriving DecidableEq, Repr

/-- Initial module state: no components, no drain. -/
def State.start : State := ⟨[], none, none, [], [], 0⟩

/-- `ComponentBase.__init__` (lines 45-61), the registry/scheduler part:
create the object with `_next_component = None`, append it to the linked
list (set the head if the list was empty, otherwise walk to the tail), and
if `_init_queue_start is None` set it to the new component and spawn the
drain task.  The constructor contains no `await`, so the whole step is
atomic under cooperative scheduling. -/
def registerLink (s : State) : Heap × Option Nat :=
  let id := s.counter
  let nodes1 := s.nodes ++ [(id, none)]
  match s.head with
  | none => (nodes1, some id)
  | some h0 =>
    match findTail nodes1 nodes1.length h0 with
    | some t => (setNext nodes1 t (some id), s.head)
    | none => (nodes1, s.head)

def registerComp (s : State) : State :=
  let id := s.counter
  let s1 : State := { s with nodes := (registerLink s).1,
                             head := (registerLink s).2, counter := id + 1 }
  match s1.initQueueStart with
  | none => { s1 with initQueueStart := some id,
                      drains := s1.drains ++ [DrainState.pending] }
  | some _ => s1

/-- The unlink loop of `ComponentBase.removeComponent` (lines 78-89):
walk with a predecessor pointer `p`; on finding the component, update the
head (if `p is None`) or the predecessor's `_next_component`.  Returns the
new heap, `some newHead` when the head was reassigned, and whether the
component was found.  The removed object's own `_next_component` is not
touched and the object stays in the heap (it is merely unreachable). -/
def unlinkAux (h : Heap) (x : Nat) : Nat → Option Nat → Option Nat → Heap × Option (Option Nat) × Bool
  | 0, _, _ => (h, none, false)
  | _ + 1, none, _ => (h, none, false)
  | fuel + 1, some c, p =>
    if c = x then
      match p with
      | none => (h, some (nextOf h c), true)
      | some pi => (setNext h pi (nextOf h c), none, true)
    else unlinkAux h x fuel (nextOf h c) (some c)

/-- The registry effect of `removeComponent`: unlink `x` from the list
reachable from `_components`.  Also reports whether `x` was found. -/
def unlinkComp (s : State) (x : Nat) : State × Bool :=
  let r := unlinkAux s.nodes x (s.nodes.length + 1) s.head none
  ({ s with nodes := r.1,
            head := match r.2.1 with | some nh => nh | none => s.head },
   r.2.2)

/-- Interleaving events of the cooperative scheduler.  `register` is a
component construction (atomic).  `drainStart k` is drain task `k` running
its first instructions (`c = _init_queue_start` and the loop test).
`drainInvoke k` is drain task `k` calling `c._init_network()` (the
suspension point).  `drainAdvance k` is the code after the `await` resumes:
`gc.collect(); c = c._next_component` and either the next loop iteration or
loop exit with `_init_queue_start = None`.  `remove x` is the atomic unlink
loop of `removeComponent` (its awaited teardown prefix does not touch the
registry state). -/
inductive Event where
  | register : Event
  | drainStart : Nat → Event
  | drainInvoke : Nat → Event
  | drainAdvance : Nat → Event
  | remove : Nat → Event
  deriving DecidableEq, Repr

/-- Small-step semantics of one event on the module state. -/
def stepEv (s : State) : Event → State
  | Event.register => registerComp s
  | Event.remove x => (unlinkComp s x).1
  | Event.drainStart k =>
    match s.drains[k]? with
    | some DrainState.pending =>
      match s.initQueueStart with
      | some c => { s with drains := s.drains.set k (DrainState.ready c) }
      | none => { s with drains := s.drains.eraseIdx k, initQueueStart := none }
    | _ => s
  | Event.drainInvoke k =>
    match s.drains[k]? with
    | some (DrainState.ready c) =>
      { s with drains := s.drains.set k (DrainState.awaiting c),
               inited := s.inited ++ [c] }
    | _ => s
  | Event.drainAdvance k =>
    match s.drains[k]? with
    | some (DrainState.awaiting c) =>
      match nextOf s.nodes c with
      | some c2 => { s with drains := s.drains.set k (DrainState.ready c2) }
      | none => { s with drains := s.drains.eraseIdx k, initQueueStart := none }
    | _ => s

/-- Run a sequence of events from the initial module state. -/
def run (evs : List Event) : State := evs.foldl stepEv State.start

/-- Whether an event list contains no removal. -/
def noRemove (evs : List Event) : Bool :=
  evs.all fun e => match e with | Event.remove _ => false | _ => true

/-- The heap shape of a run without removals: components `0..n-1` linked in
registration order. -/
def rangeHeap (n : Nat) : Heap :=
  (List.range n).map fun i => (i, if i + 1 = n then none else some (i + 1))

/-- Minimal model of Python `str.format` for `"{!s}"` placeholders, at the
character-list level: each placeholder consumes one positional argument.
(The source templates always receive exactly as many arguments as
placeholders, so the short-argument branch is never exercised.) -/
def formatS : List Char → List String → List Char
  | [], _ => []
  | '{' :: '!' :: 's' :: '}' :: rest, a :: args => a.data ++ formatS rest args
  | '{' :: '!' :: 's' :: '}' :: rest, [] => formatS rest []
  | c :: rest, args => c :: formatS rest args

/-- `ComponentBase._getDiscoveryTopic` (lines 185-188):
`"\x7b!s\x7d/\x7b!s\x7d/\x7b!s\x7d/\x7b!s\x7d/config".format(
config.MQTT_DISCOVERY_PREFIX, component_type, sys_vars.getDeviceID(), name)`.
The discovery topic head from the global config and the device id from the
device identity provider are passed as the first two parameters. -/
def getDiscoveryTopic (pref devID componentType name : String) : String :=
  String.mk (formatS "\x7b!s\x7d/\x7b!s\x7d/\x7b!s\x7d/\x7b!s\x7d/config".data
    [pref, componentType, devID, name])

/-- Observable events of a `removeComponent` call, in completion order:
the error log of the isinstance failure, `_mqtt.unsubscribe(None, self)`,
the "Removed component" info log, an mqtt publish (topic, payload,
retain flag), and the registry unlink taking effect. -/
inductive REv where
  | errorLog : REv
  | unsub : Nat → REv
  | infoLog : Nat → REv
  | publish : String → String → Bool → REv
  | unlink : Nat → REv
  deriving DecidableEq, Repr

/-- Collaborators and per-component attributes consumed by
`removeComponent`.  `getComp` is `config.getComponent` (that module is not
part of the analysed sources; modelled from the spec: an O(n) name lookup
returning the live component or a not-found signal, here `Option`).
`discoverOf` is the component's `__discover` constructor flag,
`discoveryEnabled` is `config.MQTT_DISCOVERY_ENABLED`, and
`ctypeOf`/`unameOf` give the component type string and unique name the
subclass passes to `_deleteDiscovery`. -/
structure RemCfg where
  getComp : String → Option Nat
  discoverOf : Nat → Bool
  discoveryEnabled : Bool
  pref : String
  devID : String
  ctypeOf : Nat → String
  unameOf : Nat → String

/-- The discovery topic of component `x`. -/
def discoveryTopicOf (cfg : RemCfg) (x : Nat) : String :=
  getDiscoveryTopic cfg.pref cfg.devID (cfg.ctypeOf x) (cfg.unameOf x)

/-- `ComponentBase._remove` (lines 91-102): unsubscribe all topics, log
removal, then if `config.MQTT_DISCOVERY_ENABLED and self.__discover` run
`self._discovery(False)`.  Modelled from the spec: `_discovery(False)` is
implemented by subclasses (absent from the analysed sources) and sends the
removal discovery message with empty payload, i.e. it calls
`_deleteDiscovery(component_type, unique_name)` (lines 143-146) which
publishes `""` to the discovery topic with `qos=1, retain=True`. -/
def removeTeardown (cfg : RemCfg) (x : Nat) : List REv :=
  [REv.unsub x, REv.infoLog x] ++
    (if cfg.discoveryEnabled && cfg.discoverOf x
     then [REv.publish (discoveryTopicOf cfg x) "" true] else [])

/-- The argument of `removeComponent`: a name string, a live
`ComponentBase` instance, or any other Python value (wrong type). -/
inductive RemArg where
  | str : String → RemArg
  | comp : Nat → RemArg
  | other : RemArg
  deriving DecidableEq, Repr

/-- The value `component` holds after the string-resolution step of
`removeComponent` (lines 70-71), when it is a `ComponentBase` instance. -/
def resolveArg (cfg : RemCfg) : RemArg → Option Nat
  | RemArg.str n => cfg.getComp n
  | RemArg.comp c => some c
  | RemArg.other => none

/-- `ComponentBase.removeComponent` (lines 68-89): resolve a string name
through `config.getComponent`; if the result is not a `ComponentBase`, log
an error and return `False`; otherwise await `component._remove()` and then
run the unlink loop.  The function body ends without a `return` statement,
so the Python function returns `None` on that path (modelled as
`Option Bool`, with `none` for Python `None`).  The result is the final
state, the return value, and the trace of observable events. -/
def removeComponent (cfg : RemCfg) (s : State) (arg : RemArg) :
    State × Option Bool × List REv :=
  match resolveArg cfg arg with
  | none => (s, some false, [REv.errorLog])
  | some x =>
    let tr := removeTeardown cfg x
    let r := unlinkComp s x
    (r.1, none, tr ++ if r.2 then [REv.unlink x] else [])

/-- The fields of the discovery payload.  Modelled from the spec: the
`DISCOVERY_BASE` template lives in `.definitions` which is absent from the
analysed sources; the spec describes the payload as a templated string
bundling state topic, friendly name, unique id, availability config, the
type-specific fragment and device metadata, so the payload is represented
by that field bundle. -/
structure DiscoveryMsg where
  stateTopic : String
  friendlyName : String
  devID : String
  uniqueName : String
  availability : String
  typeFragment : String
  deviceMeta : String
  deriving DecidableEq, Repr

/-- `ComponentBase._composeDiscoveryMsg` (lines 153-174).
`isDeviceTopic`/`getRealTopic` are the mqtt collaborator's topic functions
(modelled from the spec as parameters), `availFragment` is the result of
`_composeAvailability()` and `devMeta` of `sys_vars.getDeviceDiscovery()`.
Python evaluates `friendly_name = friendly_name or name`, which also
replaces an empty-string argument by `name`, and keeps `component_topic`
only when `isDeviceTopic(component_topic) is False`. -/
def composeDiscoveryMsg (isDeviceTopic : String → Bool)
    (getRealTopic : String → String) (devID availFragment devMeta : String)
    (component_topic name component_type_discovery : String)
    (friendly_name : Option String) (no_avail : Bool) : DiscoveryMsg :=
  let fn := match friendly_name with
    | none => name
    | some f => if f = "" then name else f
  let ct := if isDeviceTopic component_topic = false then component_topic
            else getRealTopic component_topic
  { stateTopic := ct
    friendlyName := fn
    devID := devID
    uniqueName := name
    availability := if no_avail then "" else availFragment
    typeFragment := component_type_discovery
    deviceMeta := devMeta }

/-- The `TYPES` list of `pms5003.py` (lines 38-40): one entry per published
sensor category. -/
def TYPES : List String :=
  ["pm10_standard", "pm25_standard", "pm100_standard", "pm10_env", "pm25_env",
   "pm100_env", "particles_03um", "particles_05um", "particles_10um",
   "particles_25um", "particles_50um", "particles_100um"]

/-- The Python `friendly_name` constructor argument of `PMS5003`: the
default `None`, a list, or a value of any other type. -/
inductive PyFN where
  | noneV : PyFN
  | listV : List String → PyFN
  | otherV : String → PyFN
  deriving DecidableEq, Repr

/-- The `friendly_name` validation of `PMS5003.__init__` (lines 77-86).
Returns whether `_log.warn` was called and the value `friendly_name` holds
afterwards.  The source guard is `if type(friendly_name) is not None:`,
which is always true because `type(x)` is never `None`; so a non-list
argument (including the `None` default) takes the `else` branch, warns,
and resets `friendly_name` to `None`, and a list of length other than 12
warns and resets it to `None`. -/
def pmsValidateFriendlyName : PyFN → Bool × Option (List String)
  | PyFN.listV l => if l.length ≠ 12 then (true, none) else (false, some l)
  | PyFN.noneV => (true, none)
  | PyFN.otherV _ => (true, none)

/-- The friendly name passed to `_addSensorType` for each sensor type
(lines 87-91): `friendly_name[ind] if friendly_name is not None else tp`
with `ind = TYPES.index(tp)`.  The list access is only reached when the
list has length 12, so the `getD` default is never used. -/
def pmsSensorNames (fn : PyFN) : List String :=
  let v := pmsValidateFriendlyName fn
  TYPES.map fun tp =>
    match v.2 with
    | some l => l.getD (TYPES.indexOf tp) tp
    | none => tp

/-- Whether a `friendly_name` argument is malformed in the sense of the
spec: a list whose length is not 12, or not a list at all. -/
def pmsBadFriendlyName : PyFN → Bool
  | PyFN.listV l => l.length ≠ 12
  | PyFN.noneV => true
  | PyFN.otherV _ => true

/-- Concrete test registry: two components constructed while idle.
The heap is `[(0, some 1), (1, none)]` with head `0`. -/
def regWit : State := run [Event.register, Event.register]

/-- Concrete test state with an active drain about to invoke component 0:
two components constructed, then the spawned drain task started. -/
def frameWit : State :=
  run [Event.register, Event.register, Event.drainStart 0]

/-- Concrete event sequence: two components constructed while idle, the
drain initializes the first, a third component registers mid-drain, and
the drain finishes. -/
def fifoEvs : List Event :=
  [Event.register, Event.register, Event.drainStart 0, Event.drainInvoke 0,
   Event.drainAdvance 0, Event.register, Event.drainInvoke 0,
   Event.drainAdvance 0, Event.drainInvoke 0, Event.drainAdvance 0]

/-- Concrete collaborator bundle with discovery disabled and an empty name
table. -/
def cfg0 : RemCfg :=
  ⟨fun _ => none, fun _ => false, false, "homeassistant", "dev42",
   fun _ => "switch", fun i => toString i⟩

/-- Concrete collaborator bundle with discovery enabled and a name table
resolving `"c0"` to component 0. -/
def cfg1 : RemCfg :=
  ⟨fun n => if n = "c0" then some 0 else none, fun _ => true, true,
   "homeassistant", "dev42", fun _ => "switch", fun i => toString i⟩

/-! ### Basic heap lemmas -/

theorem hasKey_append (h h2 : Heap) (i : Nat) :
    hasKey (h ++ h2) i = (hasKey h i || hasKey h2 i) := by
  induction h with
  | nil => simp [hasKey]
  | cons p h ih =>
    obtain ⟨a, v⟩ := p
    by_cases hai : a = i <;> simp [hasKey, hai, ih]

theorem hasKey_iff_mem (h : Heap) (i : Nat) :
    hasKey h i = true ↔ i ∈ keysOf h := by
  induction h with
  | nil => simp [hasKey, keysOf]
  | cons p h ih =>
    obtain ⟨a, v⟩ := p
    by_cases hai : a = i
    · subst hai; simp [hasKey, keysOf]
    · simp only [hasKey, if_neg hai, keysOf, List.map_cons, List.mem_cons]
      rw [ih]
      simp [keysOf, Ne.symm hai]

theorem nextOf_append_left (h h2 : Heap) (i : Nat) (hi : hasKey h i = true) :
    nextOf (h ++ h2) i = nextOf h i := by
  induction h with
  | nil => simp [hasKey] at hi
  | cons p h ih =>
    obtain ⟨a, v⟩ := p
    by_cases hai : a = i <;> simp [hasKey, hai] at hi <;> simp [nextOf, hai]
    exact ih hi

theorem nextOf_append_right (h h2 : Heap) (i : Nat) (hi : hasKey h i = false) :
    nextOf (h ++ h2) i = nextOf h2 i := by
  induction h with
  | nil => simp
  | cons p h ih =>
    obtain ⟨a, v⟩ := p
    by_cases hai : a = i <;> simp [hasKey, hai] at hi <;> simp [nextOf, hai]
    exact ih hi

theorem hasKey_setNext (h : Heap) (a : Nat) (v : Option Nat) (i : Nat) :
    hasKey (setNext h a v) i = hasKey h i := by
  induction h with
  | nil => simp [setNext]
  | cons p h ih =>
    obtain ⟨b, w⟩ := p
    by_cases hbi : b = i <;> simp [setNext, hasKey, hbi, ih]

theorem nextOf_setNext_self (h : Heap) (a : Nat) (v : Option Nat)
    (ha : hasKey h a = true) : nextOf (setNext h a v) a = v := by
  induction h with
  | nil => simp [hasKey] at ha
  | cons p h ih =>
    obtain ⟨b, w⟩ := p
    by_cases hba : b = a
    · simp [setNext, nextOf, hba]
    · simp only [hasKey, if_neg hba] at ha
      simp [setNext, nextOf, hba, ih ha]

theorem nextOf_setNext_ne (h : Heap) (a : Nat) (v : Option Nat) (i : Nat)
    (hia : i ≠ a) : nextOf (setNext h a v) i = nextOf h i := by
  induction h with
  | nil => simp [setNext]
  | cons p h ih =>
    obtain ⟨b, w⟩ := p
    by_cases hbi : b = i
    · subst hbi
      simp [setNext, nextOf, if_neg (by simpa using Ne.symm hia ∘ Eq.symm), hia]
    · simp [setNext, nextOf, hbi, ih]

/-! ### Chain lemmas -/

theorem isChain_none (h : Heap) (L : List Nat) (hc : isChain h none L = true) :
    L = [] := by
  cases L with
  | nil => rfl
  | cons i L => simp [isChain] at hc

theorem isChain_some (h : Heap) (c : Nat) (L : List Nat)
    (hc : isChain h (some c) L = true) :
    ∃ L2, L = c :: L2 ∧ hasKey h c = true ∧ isChain h (nextOf h c) L2 = true := by
  cases L with
  | nil => simp [isChain] at hc
  | cons i L2 =>
    by_cases hci : c = i
    · subst hci
      simp only [isChain, if_pos rfl, eq_self_iff_true, if_true,
        Bool.and_eq_true] at hc
      exact ⟨L2, rfl, hc.1, hc.2⟩
    · simp [isChain, hci] at hc

theorem isChain_cons (h : Heap) (c : Nat) (L : List Nat)
    (hk : hasKey h c = true) (ht : isChain h (nextOf h c) L = true) :
    isChain h (some c) (c :: L) = true := by
  simp [isChain, hk, ht]

theorem isChain_sub (h : Heap) :
    ∀ (L : List Nat) (c : Option Nat), isChain h c L = true →
      ∀ i ∈ L, hasKey h i = true := by
  intro L
  induction L with
  | nil => intro c _ i hi; simp at hi
  | cons j L ih =>
    intro c hc i hi
    match c with
    | none => simp [isChain] at hc
    | some c0 =>
      obtain ⟨L2, hEq, hk, ht⟩ := isChain_some h c0 (j :: L) hc
      obtain ⟨rfl, rfl⟩ : j = c0 ∧ L = L2 := by
        injection hEq with h1 h2; exact ⟨h1, h2⟩
      rcases List.mem_cons.mp hi with rfl | hi2
      · exact hk
      · exact ih (nextOf h j) ht i hi2

theorem isChain_agree (h h2 : Heap) :
    ∀ (L : List Nat) (c : Option Nat),
      (∀ i ∈ L, hasKey h2 i = hasKey h i ∧ nextOf h2 i = nextOf h i) →
      isChain h c L = true → isChain h2 c L = true := by
  intro L
  induction L with
  | nil => intro c _ hc; cases c with
    | none => simpa [isChain] using hc
    | some c0 => simp [isChain] at hc
  | cons j L ih =>
    intro c hag hc
    match c with
    | none => simp [isChain] at hc
    | some c0 =>
      obtain ⟨L2, hEq, hk, ht⟩ := isChain_some h c0 (j :: L) hc
      obtain ⟨rfl, rfl⟩ : j = c0 ∧ L = L2 := by
        injection hEq with h1 h2; exact ⟨h1, h2⟩
      have hj := hag j (List.mem_cons_self j L)
      refine isChain_cons h2 j L (by rw [hj.1]; exact hk) ?_
      rw [hj.2]
      exact ih (nextOf h j) (fun i hi => hag i (List.mem_cons_of_mem j hi)) ht

theorem chain_length_le (h : Heap) (c : Option Nat) (L : List Nat)
    (hc : isChain h c L = true) (hnd : L.Nodup) : L.length ≤ h.length := by
  have hsub : L ⊆ keysOf h :=
    fun i hi => (hasKey_iff_mem h i).mp (isChain_sub h L c hc i hi)
  have hle := (hnd.subperm hsub).length_le
  simpa [keysOf] using hle

theorem findTail_last (h : Heap) :
    ∀ (L : List Nat) (c fuel : Nat),
      isChain h (some c) L = true → L.length ≤ fuel →
      findTail h fuel c = L.getLast? := by
  intro L
  induction L with
  | nil => intro c fuel hc _; simp [isChain] at hc
  | cons i L ih =>
    intro c fuel hc hlen
    obtain ⟨L2, hEq, hk, ht⟩ := isChain_some h c (i :: L) hc
    obtain ⟨rfl, rfl⟩ : i = c ∧ L = L2 := by
      injection hEq with h1 h2; exact ⟨h1, h2⟩
    cases fuel with
    | zero => simp at hlen
    | succ f =>
      cases L with
      | nil =>
        have hn : nextOf h i = none := by
          cases hn : nextOf h i with
          | none => rfl
          | some y => rw [hn] at ht; simp [isChain] at ht
        simp [findTail, hn]
      | cons j L2 =>
        have hn : nextOf h i = some j := by
          cases hn : nextOf h i with
          | none => rw [hn] at ht; exact absurd (isChain_none h _ ht) (by simp)
          | some y =>
            rw [hn] at ht
            obtain ⟨L3, hEq2, _, _⟩ := isChain_some h y _ ht
            injection hEq2 with h1 _
            rw [h1]
        rw [hn] at ht
        simp only [findTail, hn]
        rw [ih j f ht (by simpa using Nat.le_of_succ_le_succ hlen)]
        simp [List.getLast?_cons_cons]

theorem mem_of_getLast?_eq (l : List Nat) (t : Nat) (hl : l.getLast? = some t) :
    t ∈ l := by
  have hx : t ∈ l.getLast? := by simp [hl]
  obtain ⟨hne, hEq⟩ := List.mem_getLast?_eq_getLast hx
  rw [hEq]
  exact List.getLast_mem hne

theorem chain_snoc (h : Heap) :
    ∀ (L : List Nat) (c t id : Nat),
      isChain h (some c) L = true → L.Nodup → L.getLast? = some t →
      hasKey h id = true → nextOf h id = none → id ∉ L →
      isChain (setNext h t (some id)) (some c) (L ++ [id]) = true := by
  intro L
  induction L with
  | nil => intro c t id hc _ _ _ _ _; simp [isChain] at hc
  | cons i L ih =>
    intro c t id hc hnd hlast hkid hnid hid
    obtain ⟨L2, hEq, hk, ht⟩ := isChain_some h c (i :: L) hc
    obtain ⟨rfl, rfl⟩ : i = c ∧ L = L2 := by
      injection hEq with h1 h2; exact ⟨h1, h2⟩
    have hidi : id ≠ i := fun hEq2 => hid (hEq2 ▸ List.mem_cons_self i L)
    cases L with
    | nil =>
      obtain rfl : i = t := by simpa using hlast
      refine isChain_cons _ i [id] (by rw [hasKey_setNext]; exact hk) ?_
      rw [nextOf_setNext_self h i (some id) hk]
      refine isChain_cons _ id [] (by rw [hasKey_setNext]; exact hkid) ?_
      rw [nextOf_setNext_ne h i (some id) id hidi, hnid]
      simp [isChain]
    | cons j L2 =>
      have hlast2 : (j :: L2).getLast? = some t := by
        simpa [List.getLast?_cons_cons] using hlast
      have htmem : t ∈ j :: L2 := mem_of_getLast?_eq _ t hlast2
      have hit : i ≠ t := fun hEq3 => (List.nodup_cons.mp hnd).1 (hEq3 ▸ htmem)
      have hn : nextOf h i = some j := by
        cases hn : nextOf h i with
        | none => rw [hn] at ht; exact absurd (isChain_none h _ ht) (by simp)
        | some y =>
          rw [hn] at ht
          obtain ⟨L3, hEq2, _, _⟩ := isChain_some h y _ ht
          injection hEq2 with h1 _
          rw [h1]
      rw [hn] at ht
      simp only [List.cons_append]
      refine isChain_cons _ i _ (by rw [hasKey_setNext]; exact hk) ?_
      rw [nextOf_setNext_ne h t (some id) i hit, hn]
      have := ih j t id ht (List.nodup_cons.mp hnd).2 hlast2 hkid hnid
        (fun hm => hid (List.mem_cons_of_mem i hm))
      simpa [List.cons_append] using this

/-! ### Register lemmas -/

theorem registerComp_nodes (s : State) :
    (registerComp s).nodes = (registerLink s).1 := by
  cases h : s.initQueueStart <;> simp [registerComp, h]

theorem registerComp_head (s : State) :
    (registerComp s).head = (registerLink s).2 := by
  cases h : s.initQueueStart <;> simp [registerComp, h]

theorem registerComp_counter (s : State) :
    (registerComp s).counter = s.counter + 1 := by
  cases h : s.initQueueStart <;> simp [registerComp, h]

theorem registerComp_inited (s : State) :
    (registerComp s).inited = s.inited := by
  cases h : s.initQueueStart <;> simp [registerComp, h]

theorem registerComp_spawn (s : State) (h : s.initQueueStart = none) :
    (registerComp s).initQueueStart = some s.counter ∧
    (registerComp s).drains = s.drains ++ [DrainState.pending] := by
  simp [registerComp, h]

theorem registerComp_noSpawn (s : State) (c : Nat)
    (h : s.initQueueStart = some c) :
    (registerComp s).initQueueStart = some c ∧
    (registerComp s).drains = s.drains := by
  simp [registerComp, h]

/-- The linked-list effect of `ComponentBase.__init__` on a well-formed
registry: the new component is appended at the tail and the head is set
exactly when the registry was empty. -/
theorem registerLink_chain (s : State) (L : List Nat)
    (hC : isChain s.nodes s.head L = true) (hnd : L.Nodup)
    (hb : ∀ k ∈ keysOf s.nodes, k < s.counter) :
    isChain (registerLink s).1 (registerLink s).2 (L ++ [s.counter]) = true := by
  have hfresh : hasKey s.nodes s.counter = false := by
    cases hk : hasKey s.nodes s.counter with
    | false => rfl
    | true =>
      exact absurd (hb s.counter ((hasKey_iff_mem _ _).mp hk)) (lt_irrefl _)
  have hk1 : hasKey (s.nodes ++ [(s.counter, none)]) s.counter = true := by
    rw [hasKey_append, hfresh]
    simp [hasKey]
  have hn1 : nextOf (s.nodes ++ [(s.counter, none)]) s.counter = none := by
    rw [nextOf_append_right _ _ _ hfresh]
    simp [nextOf]
  have hag : ∀ i ∈ L, hasKey (s.nodes ++ [(s.counter, none)]) i = hasKey s.nodes i ∧
      nextOf (s.nodes ++ [(s.counter, none)]) i = nextOf s.nodes i := by
    intro i hi
    have hki := isChain_sub s.nodes L s.head hC i hi
    constructor
    · rw [hasKey_append, hki]; simp
    · exact nextOf_append_left _ _ _ hki
  have hC1 : isChain (s.nodes ++ [(s.counter, none)]) s.head L = true :=
    isChain_agree s.nodes _ L s.head hag hC
  have hidL : s.counter ∉ L := by
    intro hmem
    have := hb s.counter ((hasKey_iff_mem _ _).mp (isChain_sub s.nodes L s.head hC _ hmem))
    exact absurd this (lt_irrefl _)
  cases hh : s.head with
  | none =>
    have hL : L = [] := isChain_none _ _ (hh ▸ hC)
    subst hL
    simp only [registerLink, hh]
    exact isChain_cons _ _ [] hk1 (by rw [hn1]; exact rfl)
  | some h0 =>
    obtain ⟨L2, hLEq, _, _⟩ := isChain_some s.nodes h0 L (hh ▸ hC)
    have hlen : L.length ≤ (s.nodes ++ [(s.counter, none)]).length := by
      have := chain_length_le s.nodes s.head L hC hnd
      simp only [List.length_append, List.length_cons, List.length_nil]
      omega
    have hne : L ≠ [] := by subst hLEq; simp
    obtain ⟨t, ht⟩ : ∃ t, L.getLast? = some t :=
      ⟨L.getLast hne, List.getLast?_eq_getLast_of_ne_nil hne⟩
    have hft : findTail (s.nodes ++ [(s.counter, none)]) (s.nodes ++ [(s.counter, none)]).length h0 = some t := by
      rw [findTail_last _ L h0 _ (hh ▸ hC1) hlen, ht]
    simp only [registerLink, hh, hft]
    exact chain_snoc _ L h0 t s.counter (hh ▸ hC1) hnd ht hk1 hn1 hidL

/-! ### Unlink lemmas -/

theorem unlinkAux_not_found (h : Heap) (x : Nat) :
    ∀ (M : List Nat) (fuel : Nat) (c p : Option Nat),
      isChain h c M = true → x ∉ M →
      unlinkAux h x fuel c p = (h, none, false) := by
  intro M
  induction M with
  | nil =>
    intro fuel c p hc _
    have hcn : c = none := by
      cases c with
      | none => rfl
      | some c0 => simp [isChain] at hc
    subst hcn
    cases fuel <;> simp [unlinkAux]
  | cons a M ih =>
    intro fuel c p hc hx
    have hx1 : x ≠ a ∧ x ∉ M := by simpa using hx
    match c with
    | none => simp [isChain] at hc
    | some c0 =>
      obtain ⟨M2, hEq, hk, ht⟩ := isChain_some h c0 _ hc
      obtain ⟨rfl, rfl⟩ : a = c0 ∧ M = M2 := by
        injection hEq with h1 h2; exact ⟨h1, h2⟩
      cases fuel with
      | zero => simp [unlinkAux]
      | succ f =>
        simp only [unlinkAux, if_neg (Ne.symm hx1.1)]
        exact ih f (nextOf h a) (some a) ht hx1.2

theorem unlinkAux_shape (h : Heap) (x : Nat) :
    ∀ (fuel : Nat) (c p : Option Nat),
      (∀ pi, p = some pi → pi ≠ x) →
      (unlinkAux h x fuel c p).1 = h ∨
        ∃ pi v, pi ≠ x ∧ (unlinkAux h x fuel c p).1 = setNext h pi v := by
  intro fuel
  induction fuel with
  | zero => intro c p _; left; rfl
  | succ f ih =>
    intro c p hp
    match c with
    | none => left; rfl
    | some c0 =>
      by_cases hcx : c0 = x
      · subst hcx
        cases p with
        | none => left; simp [unlinkAux]
        | some pi =>
          right
          exact ⟨pi, nextOf h c0, hp pi rfl, by simp [unlinkAux]⟩
      · simp only [unlinkAux, if_neg hcx]
        exact ih (nextOf h c0) (some c0)
          (fun pi hEq => by injection hEq with h1; subst h1; exact hcx)

/-- `removeComponent` never writes the removed component's own
`_next_component` field. -/
theorem unlink_nextOf_self (s : State) (x : Nat) :
    nextOf (unlinkComp s x).1.nodes x = nextOf s.nodes x := by
  have hs := unlinkAux_shape s.nodes x (s.nodes.length + 1) s.head none
    (fun pi hEq => by simp at hEq)
  rcases hs with hEq | ⟨pi, v, hpix, hEq⟩
  · simp [unlinkComp, hEq]
  · simp [unlinkComp, hEq, nextOf_setNext_ne _ _ _ _ (Ne.symm hpix)]

theorem unlinkComp_initQueueStart (s : State) (x : Nat) :
    (unlinkComp s x).1.initQueueStart = s.initQueueStart := rfl

theorem unlinkComp_drains (s : State) (x : Nat) :
    (unlinkComp s x).1.drains = s.drains := rfl

theorem unlinkComp_inited (s : State) (x : Nat) :
    (unlinkComp s x).1.inited = s.inited := rfl

theorem unlinkComp_counter (s : State) (x : Nat) :
    (unlinkComp s x).1.counter = s.counter := rfl

theorem unlinkAux_chain_aux (h : Heap) (x : Nat) :
    ∀ (M : List Nat) (a : Nat) (fuel : Nat),
      M.length ≤ fuel →
      isChain h (nextOf h a) M = true →
      (a :: M).Nodup →
      hasKey h a = true →
      x ∈ M →
      (unlinkAux h x fuel (nextOf h a) (some a)).2.1 = none ∧
      (unlinkAux h x fuel (nextOf h a) (some a)).2.2 = true ∧
      (∀ i, hasKey (unlinkAux h x fuel (nextOf h a) (some a)).1 i = hasKey h i) ∧
      (∀ b, b ∉ a :: M → nextOf (unlinkAux h x fuel (nextOf h a) (some a)).1 b = nextOf h b) ∧
      isChain (unlinkAux h x fuel (nextOf h a) (some a)).1 (some a) (a :: M.erase x) = true := by
  intro M
  induction M with
  | nil => intro a fuel _ _ _ _ hx; simp at hx
  | cons b M2 ih =>
    intro a fuel hlen hch hnd hka hx
    have hnab : nextOf h a = some b := by
      cases hn : nextOf h a with
      | none => rw [hn] at hch; exact absurd (isChain_none h _ hch) (by simp)
      | some y =>
        rw [hn] at hch
        obtain ⟨L3, hEq2, _, _⟩ := isChain_some h y _ hch
        injection hEq2 with h1 _
        rw [h1]
    rw [hnab] at hch ⊢
    obtain ⟨M3, hEq, hkb, ht⟩ := isChain_some h b _ hch
    obtain ⟨_, rfl⟩ : b = b ∧ M2 = M3 := by
      injection hEq with h1 h2; exact ⟨h1, h2⟩
    have hanb : a ∉ b :: M2 := (List.nodup_cons.mp hnd).1
    cases fuel with
    | zero => simp at hlen
    | succ f =>
      by_cases hbx : b = x
      · subst hbx
        have hred : unlinkAux h b (f + 1) (some b) (some a)
            = (setNext h a (nextOf h b), none, true) := by
          simp [unlinkAux]
        rw [hred]
        refine ⟨rfl, rfl, fun i => hasKey_setNext h a _ i, ?_, ?_⟩
        · intro bb hbb
          have hbba : bb ≠ a := fun hEq2 => hbb (hEq2 ▸ List.mem_cons_self a _)
          exact nextOf_setNext_ne h a _ bb hbba
        · rw [List.erase_cons_head]
          refine isChain_cons _ a M2 (by rw [hasKey_setNext]; exact hka) ?_
          rw [nextOf_setNext_self h a _ hka]
          refine isChain_agree h _ M2 (nextOf h b) ?_ ht
          intro i hi
          have hia : i ≠ a := fun hEq2 =>
            hanb (hEq2 ▸ List.mem_cons_of_mem b hi)
          exact ⟨hasKey_setNext h a _ i, nextOf_setNext_ne h a _ i hia⟩
      · simp only [unlinkAux, if_neg hbx]
        have hx2 : x ∈ M2 := by
          rcases List.mem_cons.mp hx with rfl | hm
          · exact absurd rfl hbx
          · exact hm
        obtain ⟨h1, h2, h3, h4, h5⟩ := ih b f (by simpa using Nat.le_of_succ_le_succ hlen)
          ht (List.nodup_cons.mp hnd).2 hkb hx2
        refine ⟨h1, h2, h3, ?_, ?_⟩
        · intro bb hbb
          exact h4 bb (fun hm => hbb (List.mem_cons_of_mem a hm))
        · rw [List.erase_cons_tail]
          · refine isChain_cons _ a _ (by rw [h3]; exact hka) ?_
            rw [h4 a hanb, hnab]
            exact h5
          · simp [hbx]

/-- The unlink loop of `removeComponent` removes exactly the target from
the registry list and leaves the rest of the list, in order. -/
theorem unlink_chain (s : State) (x : Nat) (L : List Nat)
    (hC : isChain s.nodes s.head L = true) (hnd : L.Nodup) (hx : x ∈ L) :
    (unlinkComp s x).2 = true ∧
    isChain (unlinkComp s x).1.nodes (unlinkComp s x).1.head (L.erase x) = true := by
  cases L with
  | nil => simp at hx
  | cons a L2 =>
    have hhead : s.head = some a := by
      cases hh : s.head with
      | none => rw [hh] at hC; exact absurd (isChain_none _ _ hC) (by simp)
      | some h0 =>
        rw [hh] at hC
        obtain ⟨L3, hEq2, _, _⟩ := isChain_some _ h0 _ hC
        injection hEq2 with h1 _
        rw [h1]
    rw [hhead] at hC
    obtain ⟨L3, hEq, hka, ht⟩ := isChain_some _ a _ hC
    obtain ⟨_, rfl⟩ : a = a ∧ L2 = L3 := by
      injection hEq with h1 h2; exact ⟨h1, h2⟩
    by_cases hax : a = x
    · subst hax
      have hred : unlinkAux s.nodes a (s.nodes.length + 1) s.head none
          = (s.nodes, some (nextOf s.nodes a), true) := by
        rw [hhead]; simp [unlinkAux]
      constructor
      · simp [unlinkComp, hred]
      · simp only [unlinkComp, hred]
        rw [List.erase_cons_head]
        exact ht
    · have hx2 : x ∈ L2 := by
        rcases List.mem_cons.mp hx with rfl | hm
        · exact absurd rfl (Ne.symm hax)
        · exact hm
      have hlen : L2.length ≤ s.nodes.length := by
        have := chain_length_le s.nodes s.head (a :: L2) (by rw [hhead]; exact hC) hnd
        simp only [List.length_cons] at this
        omega
      obtain ⟨h1, h2, h3, h4, h5⟩ :=
        unlinkAux_chain_aux s.nodes x L2 a s.nodes.length hlen ht hnd hka hx2
      constructor
      · simp only [unlinkComp, hhead, unlinkAux, if_neg hax]
        exact h2
      · simp only [unlinkComp, hhead, unlinkAux, if_neg hax, h1]
        rw [List.erase_cons_tail]
        · exact h5
        · simpa using hax

/-! ### rangeHeap lemmas (heap shape of removal-free runs) -/

theorem hasKey_map_mem (l : List Nat) (g : Nat → Option Nat) (i : Nat) :
    hasKey (l.map fun j => (j, g j)) i = true ↔ i ∈ l := by
  induction l with
  | nil => simp [hasKey]
  | cons a l ih =>
    by_cases hai : a = i
    · subst hai; simp [hasKey]
    · simp [hasKey, hai, ih, Ne.symm hai]

theorem nextOf_map_mem (l : List Nat) (g : Nat → Option Nat) (i : Nat)
    (hi : i ∈ l) : nextOf (l.map fun j => (j, g j)) i = g i := by
  induction l with
  | nil => simp at hi
  | cons a l ih =>
    by_cases hai : a = i
    · subst hai; simp [nextOf]
    · have hm : i ∈ l := by
        rcases List.mem_cons.mp hi with rfl | hm
        · exact absurd rfl (Ne.symm hai)
        · exact hm
      simp [nextOf, hai, ih hm]

theorem hasKey_rangeHeap (n i : Nat) :
    hasKey (rangeHeap n) i = true ↔ i < n := by
  rw [rangeHeap, hasKey_map_mem]
  exact List.mem_range

theorem nextOf_rangeHeap (n i : Nat) (hi : i < n) :
    nextOf (rangeHeap n) i = if i + 1 = n then none else some (i + 1) :=
  nextOf_map_mem _ _ i (List.mem_range.mpr hi)

theorem setNext_append (h h2 : Heap) (a : Nat) (v : Option Nat) :
    setNext (h ++ h2) a v = setNext h a v ++ setNext h2 a v := by
  induction h with
  | nil => simp [setNext]
  | cons p h ih =>
    obtain ⟨b, w⟩ := p
    simp [setNext, ih]

theorem setNext_map (l : List Nat) (g : Nat → Option Nat) (a : Nat)
    (v : Option Nat) :
    setNext (l.map fun j => (j, g j)) a v
      = l.map fun j => (j, if j = a then v else g j) := by
  induction l with
  | nil => simp [setNext]
  | cons b l ih => simp [setNext, ih]

theorem isChain_rangeHeap_aux :
    ∀ (m n k : Nat), k < n → n - k = m →
      isChain (rangeHeap n) (some k) (List.range' k m) = true := by
  intro m
  induction m with
  | zero => intro n k h1 h2; omega
  | succ m ih =>
    intro n k h1 h2
    rw [List.range'_succ]
    refine isChain_cons _ k _ ((hasKey_rangeHeap n k).mpr h1) ?_
    rw [nextOf_rangeHeap n k h1]
    by_cases hkn : k + 1 = n
    · obtain rfl : m = 0 := by omega
      simp [isChain, hkn]
    · rw [if_neg hkn]
      exact ih n (k + 1) (by omega) (by omega)

theorem isChain_rangeHeap (n : Nat) :
    isChain (rangeHeap n) (if n = 0 then none else some 0) (List.range n) = true := by
  cases n with
  | zero => simp [isChain]
  | succ m =>
    rw [if_neg (Nat.succ_ne_zero m), List.range_eq_range']
    exact isChain_rangeHeap_aux (m + 1) (m + 1) 0 (by omega) (by omega)

/-- On a removal-free registry (components `0..n-1` in a straight chain),
registering appends component `n`: the heap becomes the straight chain on
`0..n`, and the head is component `0`. -/
theorem registerLink_rangeHeap (s : State) (hn : s.nodes = rangeHeap s.counter)
    (hh : s.head = if s.counter = 0 then none else some 0) :
    (registerLink s).1 = rangeHeap (s.counter + 1) ∧
    (registerLink s).2 = some 0 := by
  cases hc : s.counter with
  | zero =>
    rw [hc] at hn hh
    simp only [rangeHeap, List.range_zero, List.map_nil] at hn
    simp at hh
    refine ⟨?_, ?_⟩ <;> simp [registerLink, hn, hh, hc, rangeHeap] <;> rfl
  | succ m =>
    rw [hc] at hn hh
    rw [if_neg (Nat.succ_ne_zero m)] at hh
    have hagree : ∀ i ∈ List.range (m + 1),
        hasKey (s.nodes ++ [(s.counter, none)]) i = hasKey (rangeHeap (m + 1)) i ∧
        nextOf (s.nodes ++ [(s.counter, none)]) i = nextOf (rangeHeap (m + 1)) i := by
      intro i hi
      have hki : hasKey (rangeHeap (m + 1)) i = true :=
        (hasKey_rangeHeap _ _).mpr (List.mem_range.mp hi)
      constructor
      · rw [hn, hasKey_append, hki]; simp
      · rw [hn, nextOf_append_left _ _ _ hki]
    have hC1 : isChain (s.nodes ++ [(s.counter, none)]) (some 0)
        (List.range (m + 1)) = true := by
      refine isChain_agree (rangeHeap (m + 1)) _ _ (some 0) hagree ?_
      have := isChain_rangeHeap (m + 1)
      rwa [if_neg (Nat.succ_ne_zero m)] at this
    have hlast : (List.range (m + 1)).getLast? = some m := by
      rw [List.range_succ]
      exact List.getLast?_concat _
    have hlen : (List.range (m + 1)).length
        ≤ (s.nodes ++ [(s.counter, none)]).length := by
      rw [hn, hc]; simp [rangeHeap]
    have hft : findTail (s.nodes ++ [(s.counter, none)])
        (s.nodes ++ [(s.counter, none)]).length 0 = some m := by
      rw [findTail_last _ (List.range (m + 1)) 0 _ hC1 hlen, hlast]
    constructor
    · simp only [registerLink, hh, hft]
      rw [hn, hc]
      have hA : rangeHeap (m + 1) ++ [(m + 1, none)]
          = (List.range (m + 2)).map
              (fun j => (j, if j + 1 = m + 1 ∨ j = m + 1 then none
                            else some (j + 1))) := by
        rw [List.range_succ, List.map_append]
        congr 1
        · rw [rangeHeap]
          refine List.map_congr_left ?_
          intro j hj
          have hjlt : j < m + 1 := List.mem_range.mp hj
          by_cases hj1 : j + 1 = m + 1
          · rw [if_pos hj1, if_pos (Or.inl hj1)]
          · rw [if_neg hj1, if_neg (by omega)]
        · simp
      rw [hA, setNext_map, rangeHeap]
      refine List.map_congr_left ?_
      intro j hj
      dsimp only
      have hjlt : j < m + 2 := List.mem_range.mp hj
      have hval : (if j = m then some (m + 1)
            else if j + 1 = m + 1 ∨ j = m + 1 then none else some (j + 1))
          = (if j + 1 = m + 2 then none else some (j + 1)) := by
        by_cases hjm : j = m
        · subst hjm
          rw [if_pos rfl, if_neg (by omega)]
        · by_cases hjm1 : j = m + 1
          · subst hjm1
            rw [if_neg hjm, if_pos (Or.inr rfl), if_pos (by omega)]
          · rw [if_neg hjm, if_neg (by omega), if_neg (by omega)]
      rw [hval]
    · simp only [registerLink, hh, hft]

/-! ### Run invariants -/

/-- Single-drain invariant: at most one drain task is alive, and a drain
task exists only while `_init_queue_start` is set. -/
def InvC1 (s : State) : Prop :=
  s.drains.length ≤ 1 ∧ (s.initQueueStart = none → s.drains = [])

theorem invC1_start : InvC1 State.start :=
  ⟨by simp [State.start], fun _ => rfl⟩

theorem invC1_step (s : State) (e : Event) (h : InvC1 s) : InvC1 (stepEv s e) := by
  obtain ⟨h1, h2⟩ := h
  cases e with
  | register =>
    rw [show stepEv s Event.register = registerComp s from rfl]
    cases hq : s.initQueueStart with
    | none =>
      obtain ⟨hq2, hd2⟩ := registerComp_spawn s hq
      exact ⟨by rw [hd2, h2 hq]; simp, by rw [hq2]; intro hc; cases hc⟩
    | some c =>
      obtain ⟨hq2, hd2⟩ := registerComp_noSpawn s c hq
      exact ⟨by rw [hd2]; exact h1, by rw [hq2]; intro hc; cases hc⟩
  | remove x =>
    refine ⟨?_, ?_⟩
    · rw [show (stepEv s (Event.remove x)).drains = s.drains from
        unlinkComp_drains s x]
      exact h1
    · rw [show (stepEv s (Event.remove x)).drains = s.drains from
        unlinkComp_drains s x,
        show (stepEv s (Event.remove x)).initQueueStart = s.initQueueStart from
        unlinkComp_initQueueStart s x]
      exact h2
  | drainStart k =>
    cases hk : s.drains[k]? with
    | none => simpa [stepEv, hk] using ⟨h1, h2⟩
    | some d =>
      cases d with
      | pending =>
        cases hq : s.initQueueStart with
        | some c =>
          refine ⟨?_, ?_⟩
          · simp [stepEv, hk, hq]
            omega
          · simp only [stepEv, hk, hq]
            intro hc; cases hc
        | none =>
          rw [h2 hq] at hk
          simp at hk
      | ready c => simpa [stepEv, hk] using ⟨h1, h2⟩
      | awaiting c => simpa [stepEv, hk] using ⟨h1, h2⟩
  | drainInvoke k =>
    cases hk : s.drains[k]? with
    | none => simpa [stepEv, hk] using ⟨h1, h2⟩
    | some d =>
      cases d with
      | ready c =>
        refine ⟨?_, ?_⟩
        · simp [stepEv, hk]
          omega
        · simp only [stepEv, hk]
          intro hq
          rw [h2 hq] at hk
          simp at hk
      | pending => simpa [stepEv, hk] using ⟨h1, h2⟩
      | awaiting c => simpa [stepEv, hk] using ⟨h1, h2⟩
  | drainAdvance k =>
    cases hk : s.drains[k]? with
    | none => simpa [stepEv, hk] using ⟨h1, h2⟩
    | some d =>
      cases d with
      | awaiting c =>
        have hsingle : s.drains = [DrainState.awaiting c] ∧ k = 0 := by
          have hlt : k < s.drains.length := by
            by_contra hge
            rw [List.getElem?_eq_none (by omega)] at hk
            cases hk
          have hlen1 : s.drains.length = 1 := by omega
          obtain ⟨a, ha⟩ := List.length_eq_one.mp hlen1
          obtain rfl : k = 0 := by omega
          rw [ha] at hk
          simp at hk
          exact ⟨by rw [ha, hk], rfl⟩
        cases hnx : nextOf s.nodes c with
        | some c2 =>
          refine ⟨?_, ?_⟩
          · simp [stepEv, hk, hnx]
            omega
          · simp only [stepEv, hk, hnx]
            intro hq
            rw [h2 hq] at hk
            simp at hk
        | none =>
          refine ⟨?_, ?_⟩
          · simp [stepEv, hk, hnx, hsingle.1, hsingle.2]
          · simp only [stepEv, hk, hnx]
            intro _
            rw [hsingle.1, hsingle.2]
            rfl
      | pending => simpa [stepEv, hk] using ⟨h1, h2⟩
      | ready c => simpa [stepEv, hk] using ⟨h1, h2⟩

theorem invC1_run (evs : List Event) : InvC1 (run evs) := by
  rw [run]
  have hgen : ∀ (l : List Event) (s : State), InvC1 s → InvC1 (l.foldl stepEv s) := by
    intro l
    induction l with
    | nil => intro s hs; exact hs
    | cons e l ih => intro s hs; exact ih (stepEv s e) (invC1_step s e hs)
  exact hgen evs State.start invC1_start

/-- Scheduler phase of a removal-free run: idle (no drain, all registered
components initialized), a spawned-but-not-started drain, a drain about to
invoke the next hook, or a drain suspended inside a hook.  In every phase
the initialized trace is an initial segment of the registration order. -/
def phaseOk (s : State) : Prop :=
  (s.drains = [] ∧ s.initQueueStart = none ∧ s.inited.length = s.counter)
  ∨ (s.drains = [DrainState.pending] ∧ s.initQueueStart = some s.inited.length
       ∧ s.inited.length < s.counter)
  ∨ (s.drains = [DrainState.ready s.inited.length] ∧ s.inited.length < s.counter
       ∧ s.initQueueStart.isSome = true)
  ∨ (∃ c, s.drains = [DrainState.awaiting c] ∧ s.inited.length = c + 1
       ∧ c < s.counter ∧ s.initQueueStart.isSome = true)

/-- Inductive invariant of removal-free runs. -/
structure InvC2 (s : State) : Prop where
  nodes_eq : s.nodes = rangeHeap s.counter
  head_eq : s.head = if s.counter = 0 then none else some 0
  inited_eq : s.inited = List.range s.inited.length
  phase : phaseOk s

theorem invC2_start : InvC2 State.start where
  nodes_eq := rfl
  head_eq := rfl
  inited_eq := rfl
  phase := Or.inl ⟨rfl, rfl, rfl⟩

theorem invC2_step_register (s : State) (inv : InvC2 s) :
    InvC2 (registerComp s) := by
  obtain ⟨hRL1, hRL2⟩ := registerLink_rangeHeap s inv.nodes_eq inv.head_eq
  have hN := registerComp_nodes s
  have hH := registerComp_head s
  have hCt := registerComp_counter s
  have hI := registerComp_inited s
  refine ⟨?_, ?_, ?_, ?_⟩
  · rw [hN, hRL1, hCt]
  · rw [hH, hRL2, hCt, if_neg (Nat.succ_ne_zero _)]
  · rw [hI]; exact inv.inited_eq
  · cases hq : s.initQueueStart with
    | none =>
      obtain ⟨hq2, hd2⟩ := registerComp_spawn s hq
      rcases inv.phase with ⟨hd, _, hlen⟩ | ⟨_, hq1, _⟩ | ⟨_, _, hq1⟩
        | ⟨c, _, _, _, hq1⟩
      · refine Or.inr (Or.inl ⟨?_, ?_, ?_⟩)
        · rw [hd2, hd]; rfl
        · rw [hq2, hI, hlen]
        · rw [hI, hCt]; omega
      · rw [hq] at hq1; cases hq1
      · rw [hq] at hq1; cases hq1
      · rw [hq] at hq1; cases hq1
    | some c0 =>
      obtain ⟨hq2, hd2⟩ := registerComp_noSpawn s c0 hq
      rcases inv.phase with ⟨_, hq1, _⟩ | ⟨hd, hq1, hlen⟩ | ⟨hd, hlen, _⟩
        | ⟨c, hd, hlen, hcc, _⟩
      · rw [hq1] at hq; cases hq
      · refine Or.inr (Or.inl ⟨?_, ?_, ?_⟩)
        · rw [hd2, hd]
        · rw [hq2, hI]
          rw [hq1] at hq
          injection hq with hq3
          rw [hq3]
        · rw [hI, hCt]; omega
      · refine Or.inr (Or.inr (Or.inl ⟨?_, ?_, ?_⟩))
        · rw [hd2, hI, hd]
        · rw [hI, hCt]; omega
        · rw [hq2]; rfl
      · refine Or.inr (Or.inr (Or.inr ⟨c, ?_, ?_, ?_, ?_⟩))
        · rw [hd2, hd]
        · rw [hI, hlen]
        · rw [hCt]; omega
        · rw [hq2]; rfl

theorem invC2_step (s : State) (e : Event) (inv : InvC2 s)
    (he : ∀ x, e ≠ Event.remove x) : InvC2 (stepEv s e) := by
  cases e with
  | register => exact invC2_step_register s inv
  | remove x => exact absurd rfl (he x)
  | drainStart k =>
    rcases inv.phase with ⟨hd, hq, hlen⟩ | ⟨hd, hq, hlen⟩ | ⟨hd, hlen, hq⟩
      | ⟨c, hd, hlen, hcc, hq⟩
    · have hk : s.drains[k]? = none := by rw [hd]; simp
      simpa [stepEv, hk] using inv
    · cases k with
      | zero =>
        have hk : s.drains[0]? = some DrainState.pending := by rw [hd]; rfl
        refine ⟨?_, ?_, ?_, ?_⟩ <;> simp only [stepEv, hk, hq]
        · exact inv.nodes_eq
        · exact inv.head_eq
        · exact inv.inited_eq
        · refine Or.inr (Or.inr (Or.inl ⟨?_, ?_, ?_⟩))
          · rw [hd]; rfl
          · exact hlen
          · rfl
      | succ j =>
        have hk : s.drains[j + 1]? = none := by rw [hd]; simp
        have hstep : stepEv s (Event.drainStart (j + 1)) = s := by
          simp only [stepEv]
          rw [hk]
        rw [hstep]
        exact inv
    · have hk : ∀ j : Nat, s.drains[j]? ≠ some DrainState.pending := by
        intro j
        rw [hd]
        cases j with
        | zero => simp
        | succ i => simp
      cases hkk : s.drains[k]? with
      | none => simpa [stepEv, hkk] using inv
      | some d =>
        cases d with
        | pending => exact absurd hkk (hk k)
        | ready c2 => simpa [stepEv, hkk] using inv
        | awaiting c2 => simpa [stepEv, hkk] using inv
    · cases hkk : s.drains[k]? with
      | none => simpa [stepEv, hkk] using inv
      | some d =>
        cases d with
        | pending =>
          exfalso
          rw [hd] at hkk
          cases k with
          | zero => simp at hkk
          | succ j => simp at hkk
        | ready c2 => simpa [stepEv, hkk] using inv
        | awaiting c2 => simpa [stepEv, hkk] using inv
  | drainInvoke k =>
    rcases inv.phase with ⟨hd, hq, hlen⟩ | ⟨hd, hq, hlen⟩ | ⟨hd, hlen, hq⟩
      | ⟨c, hd, hlen, hcc, hq⟩
    · have hk : s.drains[k]? = none := by rw [hd]; simp
      simpa [stepEv, hk] using inv
    · cases hkk : s.drains[k]? with
      | none => simpa [stepEv, hkk] using inv
      | some d =>
        cases d with
        | ready c2 =>
          exfalso
          rw [hd] at hkk
          cases k with
          | zero => simp at hkk
          | succ j => simp at hkk
        | pending => simpa [stepEv, hkk] using inv
        | awaiting c2 => simpa [stepEv, hkk] using inv
    · cases k with
      | zero =>
        have hk : s.drains[0]? = some (DrainState.ready s.inited.length) := by
          rw [hd]; rfl
        refine ⟨?_, ?_, ?_, ?_⟩ <;> simp only [stepEv, hk]
        · exact inv.nodes_eq
        · exact inv.head_eq
        · simp only [List.length_append, List.length_cons, List.length_nil]
          rw [List.range_succ]
          rw [← inv.inited_eq]
        · refine Or.inr (Or.inr (Or.inr ⟨s.inited.length, ?_, ?_, ?_, ?_⟩))
          · rw [hd]; rfl
          · simp
          · exact hlen
          · exact hq
      | succ j =>
        have hk : s.drains[j + 1]? = none := by rw [hd]; simp
        simpa [stepEv, hk] using inv
    · cases hkk : s.drains[k]? with
      | none => simpa [stepEv, hkk] using inv
      | some d =>
        cases d with
        | ready c2 =>
          exfalso
          rw [hd] at hkk
          cases k with
          | zero => simp at hkk
          | succ j => simp at hkk
        | pending => simpa [stepEv, hkk] using inv
        | awaiting c2 => simpa [stepEv, hkk] using inv
  | drainAdvance k =>
    rcases inv.phase with ⟨hd, hq, hlen⟩ | ⟨hd, hq, hlen⟩ | ⟨hd, hlen, hq⟩
      | ⟨c, hd, hlen, hcc, hq⟩
    · have hk : s.drains[k]? = none := by rw [hd]; simp
      simpa [stepEv, hk] using inv
    · cases hkk : s.drains[k]? with
      | none => simpa [stepEv, hkk] using inv
      | some d =>
        cases d with
        | awaiting c2 =>
          exfalso
          rw [hd] at hkk
          cases k with
          | zero => simp at hkk
          | succ j => simp at hkk
        | pending => simpa [stepEv, hkk] using inv
        | ready c2 => simpa [stepEv, hkk] using inv
    · cases hkk : s.drains[k]? with
      | none => simpa [stepEv, hkk] using inv
      | some d =>
        cases d with
        | awaiting c2 =>
          exfalso
          rw [hd] at hkk
          cases k with
          | zero => simp at hkk
          | succ j => simp at hkk
        | pending => simpa [stepEv, hkk] using inv
        | ready c2 => simpa [stepEv, hkk] using inv
    · cases k with
      | zero =>
        have hk : s.drains[0]? = some (DrainState.awaiting c) := by rw [hd]; rfl
        have hnx : nextOf s.nodes c = if c + 1 = s.counter then none
            else some (c + 1) := by
          rw [inv.nodes_eq]
          exact nextOf_rangeHeap _ _ hcc
        by_cases hce : c + 1 = s.counter
        · have hnx2 : nextOf s.nodes c = none := by rw [hnx, if_pos hce]
          refine ⟨?_, ?_, ?_, ?_⟩ <;> simp only [stepEv, hk, hnx2]
          · exact inv.nodes_eq
          · exact inv.head_eq
          · exact inv.inited_eq
          · refine Or.inl ⟨?_, rfl, ?_⟩
            · rw [hd]; rfl
            · show s.inited.length = s.counter
              omega
        · have hnx2 : nextOf s.nodes c = some (c + 1) := by rw [hnx, if_neg hce]
          refine ⟨?_, ?_, ?_, ?_⟩ <;> simp only [stepEv, hk, hnx2]
          · exact inv.nodes_eq
          · exact inv.head_eq
          · exact inv.inited_eq
          · refine Or.inr (Or.inr (Or.inl ⟨?_, ?_, ?_⟩))
            · show s.drains.set 0 (DrainState.ready (c + 1))
                = [DrainState.ready s.inited.length]
              rw [hd, hlen]
              rfl
            · show s.inited.length < s.counter
              omega
            · exact hq
      | succ j =>
        have hk : s.drains[j + 1]? = none := by rw [hd]; simp
        simpa [stepEv, hk] using inv

theorem invC2_run (evs : List Event) (hnr : noRemove evs = true) :
    InvC2 (run evs) := by
  rw [run]
  have hgen : ∀ (l : List Event) (s : State), InvC2 s →
      (l.all fun e => match e with | Event.remove _ => false | _ => true) = true →
      InvC2 (l.foldl stepEv s) := by
    intro l
    induction l with
    | nil => intro s hs _; exact hs
    | cons e l ih =>
      intro s hs hall
      rw [List.all_cons, Bool.and_eq_true] at hall
      refine ih (stepEv s e) (invC2_step s e hs ?_) hall.2
      intro x hx
      rw [hx] at hall
      simpa using hall.1
  exact hgen evs State.start invC2_start hnr

/-! ### Claim theorems -/

/-- C1: For every sequence of events (component constructions, drain steps
and removals, interleaved arbitrarily), at most one network-init drain
process exists system-wide at any time: a construction spawns the drain
task only when `_init_queue_start` is `None`, and every construction while
it is set merely appends to the registry, so the number of live drain
tasks never exceeds one. -/
theorem single_drain_process (evs : List Event) :
    (run evs).drains.length ≤ 1 :=
  (invC1_run evs).1

/-- C2: FIFO network-init order.  Component identities are assigned
`0, 1, 2, ...` in construction order, so `List.range` of the registration
counter is the registration order.  In every removal-free run the trace of
`_init_network` invocations equals `List.range k` for `k` at most the
number of registered components: the drain invokes the hooks in exactly
registration order (components registered after the drain started
included), and a later-registered component is initialized only after
every component registered before it. -/
theorem drain_fifo_order (evs : List Event) (hnr : noRemove evs = true) :
    (run evs).inited = List.range (run evs).inited.length ∧
    (run evs).inited.length ≤ (run evs).counter := by
  have inv := invC2_run evs hnr
  refine ⟨inv.inited_eq, ?_⟩
  rcases inv.phase with ⟨_, _, h⟩ | ⟨_, _, h⟩ | ⟨_, h, _⟩ | ⟨c, _, h, hc, _⟩
  · omega
  · omega
  · omega
  · omega

theorem drain_fifo_order_witness :
    noRemove fifoEvs = true ∧
    ((run fifoEvs).inited = List.range (run fifoEvs).inited.length ∧
     (run fifoEvs).inited.length ≤ (run fifoEvs).counter) :=
  ⟨by decide, drain_fifo_order fifoEvs (by decide)⟩

/-- C3: On every well-formed registry (the reachable list `L` has no
duplicates and all component identities are older than the counter),
constructing a component appends it at the tail of the singly-linked list:
the list reachable from the head becomes `L ++ [new]`, the relative order
and linkage of the previously registered components is unchanged, and the
head is set exactly when the registry was empty. -/
theorem register_appends_tail (s : State) (L : List Nat)
    (hC : isChain s.nodes s.head L = true) (hnd : L.Nodup)
    (hb : ∀ k ∈ keysOf s.nodes, k < s.counter) :
    isChain (registerComp s).nodes (registerComp s).head (L ++ [s.counter]) = true
    ∧ (s.head = none → (registerComp s).head = some s.counter) := by
  constructor
  · rw [registerComp_nodes, registerComp_head]
    exact registerLink_chain s L hC hnd hb
  · intro hh
    rw [registerComp_head]
    simp [registerLink, hh]

theorem register_appends_tail_witness :
    (isChain regWit.nodes regWit.head [0, 1] = true ∧ ([0, 1] : List Nat).Nodup
      ∧ ∀ k ∈ keysOf regWit.nodes, k < regWit.counter) ∧
    (isChain (registerComp regWit).nodes (registerComp regWit).head
        ([0, 1] ++ [regWit.counter]) = true
      ∧ (regWit.head = none → (registerComp regWit).head = some regWit.counter)) :=
  ⟨⟨by decide, by decide, by decide⟩,
   register_appends_tail regWit [0, 1] (by decide) (by decide) (by decide)⟩

/-- C4 (counterexample): the claim "removeComponent reports an error for a
Component not currently present in the registry" fails on the code.
Component 5 is a `ComponentBase`-typed value not in the registry `[0, 1]`,
yet `removeComponent` logs no error for it: the error log fires only on
the isinstance check, and the not-found walk of the unlink loop falls
through silently (the call still returns Python `None`, a falsy value, and
leaves the state unchanged). -/
theorem removeComponent_unregistered_no_error_cex :
    isChain regWit.nodes regWit.head [0, 1] = true
    ∧ (5 ∉ ([0, 1] : List Nat))
    ∧ REv.errorLog ∉ (removeComponent cfg0 regWit (RemArg.comp 5)).2.2
    ∧ (removeComponent cfg0 regWit (RemArg.comp 5)).2.1 = none
    ∧ (removeComponent cfg0 regWit (RemArg.comp 5)).1 = regWit := by decide

/-- C4 (amended): for every input that is not a `ComponentBase` and does
not resolve to one (wrong-typed values and unresolvable names),
`removeComponent` logs exactly one error, returns `False`, never raises,
and leaves the state unchanged; for a `ComponentBase` instance that is not
currently in the registry list it does NOT log an error: it performs the
teardown and returns Python `None` (falsy), leaving the registry state
unchanged and emitting no unlink. -/
theorem removeComponent_error_handling (cfg : RemCfg) (s : State)
    (arg : RemArg) (L : List Nat)
    (hC : isChain s.nodes s.head L = true) :
    (resolveArg cfg arg = none →
      removeComponent cfg s arg = (s, some false, [REv.errorLog]))
    ∧ (∀ x, resolveArg cfg arg = some x → x ∉ L →
        (removeComponent cfg s arg).1 = s
        ∧ (removeComponent cfg s arg).2.1 = none
        ∧ REv.errorLog ∉ (removeComponent cfg s arg).2.2) := by
  constructor
  · intro hres
    simp [removeComponent, hres]
  · intro x hres hxL
    have hnf := unlinkAux_not_found s.nodes x L (s.nodes.length + 1)
      s.head none hC hxL
    have hu : unlinkComp s x = (s, false) := by
      simp [unlinkComp, hnf]
    refine ⟨?_, ?_, ?_⟩
    · simp [removeComponent, hres, hu]
    · simp [removeComponent, hres, hu]
    · simp only [removeComponent, hres, hu]
      cases hde : cfg.discoveryEnabled && cfg.discoverOf x <;>
        simp [removeTeardown, hde]

theorem removeComponent_error_handling_witness :
    isChain regWit.nodes regWit.head [0, 1] = true ∧
    ((removeComponent cfg0 regWit (RemArg.comp 5)).1 = regWit
      ∧ (removeComponent cfg0 regWit (RemArg.comp 5)).2.1 = none
      ∧ REv.errorLog ∉ (removeComponent cfg0 regWit (RemArg.comp 5)).2.2) :=
  ⟨by decide,
   (removeComponent_error_handling cfg0 regWit (RemArg.comp 5) [0, 1]
     (by decide)).2 5 (by decide) (by decide)⟩

/-- C5: Tombstone on removal.  Removing a registered component whose
`__discover` flag is set while `config.MQTT_DISCOVERY_ENABLED` holds
produces exactly this completion-ordered trace: unsubscribe, removal log,
exactly one retained (`retain=True`) empty-payload (`""`) publish to that
component's discovery topic, and only then the registry unlink.  So the
tombstone publish happens after the unsubscribe completes and before the
component is unlinked, and no second tombstone is sent. -/
theorem tombstone_on_removal (cfg : RemCfg) (s : State) (x : Nat)
    (L : List Nat) (hC : isChain s.nodes s.head L = true) (hnd : L.Nodup)
    (hx : x ∈ L) (hde : cfg.discoveryEnabled = true)
    (hdo : cfg.discoverOf x = true) :
    (removeComponent cfg s (RemArg.comp x)).2.2
      = [REv.unsub x, REv.infoLog x,
         REv.publish (discoveryTopicOf cfg x) "" true, REv.unlink x] := by
  have hfound := (unlink_chain s x L hC hnd hx).1
  simp [removeComponent, resolveArg, removeTeardown, hde, hdo, hfound]

theorem tombstone_on_removal_witness :
    (isChain regWit.nodes regWit.head [0, 1] = true
      ∧ ([0, 1] : List Nat).Nodup ∧ 0 ∈ ([0, 1] : List Nat)
      ∧ cfg1.discoveryEnabled = true ∧ cfg1.discoverOf 0 = true) ∧
    (removeComponent cfg1 regWit (RemArg.comp 0)).2.2
      = [REv.unsub 0, REv.infoLog 0,
         REv.publish (discoveryTopicOf cfg1 0) "" true, REv.unlink 0] :=
  ⟨⟨by decide, by decide, by decide, rfl, rfl⟩,
   tombstone_on_removal cfg1 regWit 0 [0, 1] (by decide) (by decide)
     (by decide) rfl rfl⟩

/-- C6 (counterexample): the claim "removeComponent returns success (a
truthy/True result) after the registry unlink" fails on the code: the
function body has no `return` statement on the successful path, so the
call returns Python `None` (falsy), never `True`.  Here component 0 is
registered, is successfully removed (the trace ends with its unlink), and
the returned value is `None`, not a truthy success flag. -/
theorem removeComponent_returns_none_cex :
    0 ∈ ([0, 1] : List Nat)
    ∧ isChain regWit.nodes regWit.head [0, 1] = true
    ∧ (removeComponent cfg1 regWit (RemArg.comp 0)).2.2.getLast?
        = some (REv.unlink 0)
    ∧ (removeComponent cfg1 regWit (RemArg.comp 0)).2.1 = none
    ∧ (removeComponent cfg1 regWit (RemArg.comp 0)).2.1 ≠ some true := by decide

/-- C6 (amended): for every argument that resolves to a registered
component, `removeComponent` first resolves a string name to the live
instance through `config.getComponent` (the call behaves exactly as if
the instance had been passed), performs the teardown, and completes only
after the registry unlink: in the returned state the component is gone
from the registry list (the reachable list is `L` with `x` erased), the
unlink is the last event of the trace, and the returned value on this
path is Python `None` (falsy), not a truthy success flag. -/
theorem removeComponent_success_path (cfg : RemCfg) (s : State) (x : Nat)
    (n : String) (L : List Nat)
    (hC : isChain s.nodes s.head L = true) (hnd : L.Nodup) (hx : x ∈ L)
    (hres : cfg.getComp n = some x) :
    removeComponent cfg s (RemArg.str n) = removeComponent cfg s (RemArg.comp x)
    ∧ (removeComponent cfg s (RemArg.comp x)).2.1 = none
    ∧ isChain (removeComponent cfg s (RemArg.comp x)).1.nodes
        (removeComponent cfg s (RemArg.comp x)).1.head (L.erase x) = true
    ∧ (removeComponent cfg s (RemArg.comp x)).2.2.getLast?
        = some (REv.unlink x) := by
  obtain ⟨hfound, hchain⟩ := unlink_chain s x L hC hnd hx
  refine ⟨?_, ?_, ?_, ?_⟩
  · simp [removeComponent, resolveArg, hres]
  · simp [removeComponent, resolveArg]
  · have heq : (removeComponent cfg s (RemArg.comp x)).1 = (unlinkComp s x).1 := by
      simp [removeComponent, resolveArg]
    rw [heq]
    exact hchain
  · simp [removeComponent, resolveArg, hfound, List.getLast?_concat]

theorem removeComponent_success_path_witness :
    (isChain regWit.nodes regWit.head [0, 1] = true
      ∧ ([0, 1] : List Nat).Nodup ∧ 0 ∈ ([0, 1] : List Nat)
      ∧ cfg1.getComp "c0" = some 0) ∧
    (removeComponent cfg1 regWit (RemArg.str "c0")
        = removeComponent cfg1 regWit (RemArg.comp 0)
      ∧ (removeComponent cfg1 regWit (RemArg.comp 0)).2.1 = none
      ∧ isChain (removeComponent cfg1 regWit (RemArg.comp 0)).1.nodes
          (removeComponent cfg1 regWit (RemArg.comp 0)).1.head
          (([0, 1] : List Nat).erase 0) = true
      ∧ (removeComponent cfg1 regWit (RemArg.comp 0)).2.2.getLast?
          = some (REv.unlink 0)) :=
  ⟨⟨by decide, by decide, by decide, by decide⟩,
   removeComponent_success_path cfg1 regWit 0 "c0" [0, 1] (by decide)
     (by decide) (by decide) (by decide)⟩

/-- C7: For every discovery prefix, device id, component type and unique
name, `_getDiscoveryTopic` returns exactly the string
`"{discoveryPrefix}/{componentType}/{deviceID}/{uniqueName}/config"`; as
an equation against a function of the arguments this also gives
determinism: for a fixed config and device identity the topic is a
function of the component type and the unique name alone. -/
theorem discovery_topic_format (pref devID componentType name : String) :
    getDiscoveryTopic pref devID componentType name
      = pref ++ "/" ++ componentType ++ "/" ++ devID ++ "/" ++ name
          ++ "/config" := by
  obtain ⟨pl⟩ := pref
  obtain ⟨tl⟩ := componentType
  obtain ⟨dl⟩ := devID
  obtain ⟨nl⟩ := name
  apply String.ext
  simp [getDiscoveryTopic, formatS, String.data_append]

/-- C8: In every discovery-message composition, the friendly name defaults
to the unique name when not supplied, the state topic embedded in the
payload is the canonical (real) topic whenever the given topic is
device-relative (and the topic itself otherwise), and the
availability-config fragment is included exactly when `no_avail` is false
(an empty fragment is substituted when it is true). -/
theorem compose_discovery_msg_props (idt : String → Bool)
    (grt : String → String) (devID avail devMeta ct name frag : String)
    (fn : Option String) (na : Bool) :
    (composeDiscoveryMsg idt grt devID avail devMeta ct name frag none na).friendlyName
        = name
    ∧ (composeDiscoveryMsg idt grt devID avail devMeta ct name frag fn na).stateTopic
        = (if idt ct = true then grt ct else ct)
    ∧ (composeDiscoveryMsg idt grt devID avail devMeta ct name frag fn na).availability
        = (if na = true then "" else avail) := by
  refine ⟨rfl, ?_, ?_⟩
  · cases h : idt ct <;> simp [composeDiscoveryMsg, h]
  · cases na <;> simp [composeDiscoveryMsg]

/-- C9: For every `PMS5003` construction whose `friendly_name` argument is
a list of length other than 12, or not a list at all (including the `None`
default, since the guard `type(friendly_name) is not None` is always
true), the constructor logs a warning and substitutes the degraded
default: every sensor type gets its own type name as friendly name.  The
validation itself never raises, so construction never fails fatally on
this account. -/
theorem pms_friendly_name_fallback (fn : PyFN)
    (hbad : pmsBadFriendlyName fn = true) :
    (pmsValidateFriendlyName fn).1 = true ∧ pmsSensorNames fn = TYPES := by
  cases fn with
  | noneV => exact ⟨rfl, by simp [pmsSensorNames, pmsValidateFriendlyName]⟩
  | otherV t => exact ⟨rfl, by simp [pmsSensorNames, pmsValidateFriendlyName]⟩
  | listV l =>
    have hl : l.length ≠ 12 := by simpa [pmsBadFriendlyName] using hbad
    constructor
    · simp [pmsValidateFriendlyName, hl]
    · simp [pmsSensorNames, pmsValidateFriendlyName, hl]

theorem pms_friendly_name_fallback_witness :
    pmsBadFriendlyName (PyFN.listV ["a", "b"]) = true ∧
    ((pmsValidateFriendlyName (PyFN.listV ["a", "b"])).1 = true
      ∧ pmsSensorNames (PyFN.listV ["a", "b"]) = TYPES) :=
  ⟨by decide, pms_friendly_name_fallback (PyFN.listV ["a", "b"]) (by decide)⟩

/-- C10: Unlinking a component never modifies the removed node's own
`_next_component` pointer, never modifies `_init_queue_start`, and never
modifies the drain tasks.  Consequently, if a drain task is about to
invoke the removed component (`ready x`), it still invokes the removed
component's `_init_network` hook and then advances along the removed
node's original next chain: the next drain state is `ready` at the
original `next` of `x` (or the drain finishes if `x` was the tail). -/
theorem remove_frame_drain (s : State) (x k : Nat)
    (hk : s.drains[k]? = some (DrainState.ready x)) :
    nextOf (unlinkComp s x).1.nodes x = nextOf s.nodes x
    ∧ (unlinkComp s x).1.initQueueStart = s.initQueueStart
    ∧ (unlinkComp s x).1.drains = s.drains
    ∧ (stepEv (unlinkComp s x).1 (Event.drainInvoke k)).inited = s.inited ++ [x]
    ∧ (stepEv (stepEv (unlinkComp s x).1 (Event.drainInvoke k))
          (Event.drainAdvance k)).drains
        = (match nextOf s.nodes x with
           | some y => s.drains.set k (DrainState.ready y)
           | none => (s.drains.set k (DrainState.awaiting x)).eraseIdx k) := by
  have h1 := unlink_nextOf_self s x
  have hlt : k < s.drains.length := by
    by_contra hge
    rw [List.getElem?_eq_none (by omega)] at hk
    cases hk
  have hk2 : (unlinkComp s x).1.drains[k]? = some (DrainState.ready x) := by
    rw [unlinkComp_drains]; exact hk
  have hinv : stepEv (unlinkComp s x).1 (Event.drainInvoke k)
      = { (unlinkComp s x).1 with
          drains := (unlinkComp s x).1.drains.set k (DrainState.awaiting x),
          inited := (unlinkComp s x).1.inited ++ [x] } := by
    simp [stepEv, hk2]
  refine ⟨h1, rfl, rfl, ?_, ?_⟩
  · rw [hinv]
    show (unlinkComp s x).1.inited ++ [x] = s.inited ++ [x]
    rw [unlinkComp_inited]
  · rw [hinv]
    have hk3 : ((unlinkComp s x).1.drains.set k (DrainState.awaiting x))[k]?
        = some (DrainState.awaiting x) :=
      List.getElem?_set_eq_of_lt _ (by rw [unlinkComp_drains]; exact hlt)
    cases hnx : nextOf s.nodes x with
    | some y =>
      have hnx2 : nextOf (unlinkComp s x).1.nodes x = some y := by
        rw [h1, hnx]
      simp only [stepEv, hk3, hnx2]
      rw [unlinkComp_drains, List.set_set]
    | none =>
      have hnx2 : nextOf (unlinkComp s x).1.nodes x = none := by
        rw [h1, hnx]
      simp only [stepEv, hk3, hnx2]
      rw [unlinkComp_drains]

theorem remove_frame_drain_witness :
    frameWit.drains[0]? = some (DrainState.ready 0) ∧
    (nextOf (unlinkComp frameWit 0).1.nodes 0 = nextOf frameWit.nodes 0
      ∧ (unlinkComp frameWit 0).1.initQueueStart = frameWit.initQueueStart
      ∧ (unlinkComp frameWit 0).1.drains = frameWit.drains
      ∧ (stepEv (unlinkComp frameWit 0).1 (Event.drainInvoke 0)).inited
          = frameWit.inited ++ [0]
      ∧ (stepEv (stepEv (unlinkComp frameWit 0).1 (Event.drainInvoke 0))
            (Event.drainAdvance 0)).drains
          = (match nextOf frameWit.nodes 0 with
             | some y => frameWit.drains.set 0 (DrainState.ready y)
             | none => (frameWit.drains.set 0 (DrainState.awaiting 0)).eraseIdx 0)) :=
  ⟨by decide, remove_frame_drain frameWit 0 0 (by decide)⟩

end PySmartNode
